import Mathlib

/-!
Verification of the redis-spaceship repository's capacity-deck and
burn-sequence subsystems against its specification.

Modelling conventions:
* Masses, fuel amounts and capacities are exact rationals (`ℚ`).
* The burn-physics arithmetic of the thruster (`DictThruster.fire`) is
  performed in Python with IEEE-754 double precision, and the worked
  scenarios of the spec cite exact double results; we therefore emulate
  double-precision rounding on `ℚ` (`roundDouble` and the `fadd`/`fsub`/
  `fmul`/`fdiv` operations) for that code path.  All values arising in
  this development lie far inside the normal double range, so neither
  subnormals nor overflow need to be modelled.
* Fallible Python code (exceptions) is modelled with `Except`.
-/

attribute [local semireducible] Rat.mul Rat.add Rat.sub Rat.inv Rat.ofScientific

set_option maxRecDepth 16384

namespace Spaceship

/-- Round a rational to the nearest integer, ties to even (the IEEE-754
default rounding of the integer significand, and also Python's `round`). -/
def roundHalfEven (q : ℚ) : ℤ :=
  if q - ⌊q⌋ < 1/2 then ⌊q⌋
  else if 1/2 < q - ⌊q⌋ then ⌊q⌋ + 1
  else if ⌊q⌋ % 2 = 0 then ⌊q⌋ else ⌊q⌋ + 1

/-- `2 ^ e` as a rational, for an integer exponent. -/
def pow2 (e : ℤ) : ℚ :=
  if 0 ≤ e then ((2 ^ e.toNat : ℕ) : ℚ) else 1 / ((2 ^ (-e).toNat : ℕ) : ℚ)

/-- Floor of the base-2 logarithm of a positive natural, by structural
recursion on a fuel bound (200 bits covers every quantity in this
development). -/
def log2fuel : Nat → Nat → Nat
| 0, _ => 0
| fuel + 1, n => if 2 ≤ n then log2fuel fuel (n / 2) + 1 else 0

/-- The binary exponent `e` of a positive rational: `2 ^ e ≤ a < 2 ^ (e+1)`.
The bit lengths of numerator and denominator pin `e` down to one of two
candidates; one comparison settles it. -/
def expOf (a : ℚ) : ℤ :=
  let e0 : ℤ := (log2fuel 200 a.num.natAbs : ℤ) - (log2fuel 200 a.den : ℤ)
  if pow2 e0 ≤ a then e0 else e0 - 1

/-- Round a rational to the nearest IEEE-754 double (binary64: 53-bit
significand, round to nearest, ties to even), expressed again as a
rational.  Subnormals and overflow are not modelled (see module comment). -/
def roundDouble (q : ℚ) : ℚ :=
  if q = 0 then 0
  else
    let a := |q|
    let e := expOf a
    let m := roundHalfEven (a * pow2 (52 - e))
    let r := (m : ℚ) * pow2 (e - 52)
    if q < 0 then -r else r

/-- Double-precision addition. -/
def fadd (x y : ℚ) : ℚ := roundDouble (x + y)

/-- Double-precision subtraction. -/
def fsub (x y : ℚ) : ℚ := roundDouble (x - y)

/-- Double-precision multiplication. -/
def fmul (x y : ℚ) : ℚ := roundDouble (x * y)

/-- Double-precision division (callers check for a zero divisor first,
mirroring Python's `ZeroDivisionError`). -/
def fdiv (x y : ℚ) : ℚ := roundDouble (x / y)

/-- Truncation toward zero, as Python's `int()` on a float. -/
def truncQ (q : ℚ) : ℤ := if 0 ≤ q then ⌊q⌋ else -⌊-q⌋

/-- Python's builtin `round` on a float: nearest integer, ties to even. -/
def pyRound (q : ℚ) : ℤ := roundHalfEven q

/-- The double nearest to 9.8 (Earth gravity as written in the tests). -/
def g9_8 : ℚ := roundDouble (49/5)

/-- The double nearest to 3.6 (the m/s → km/h factor in the thruster). -/
def f3_6 : ℚ := roundDouble (18/5)

end Spaceship

deriving instance DecidableEq for Except

namespace Spaceship

/-! ## Data model (`spaceship/models.py`) -/

/-- `models.Direction`: the eight compass points. -/
inductive Direction where
| N | NE | E | SE | S | SW | W | NW
deriving DecidableEq

/-- `models.Velocity`: a speed in km/h and a direction. -/
structure Velocity where
  speed_kmh : ℚ
  direction : Direction

/-- `models.Person` and `models.Object` collapsed into one record: both
dataclasses carry exactly `name`, `mass` and a `type` discriminator
(`"person"` or `"object"`). -/
structure SimpleObj where
  name : String
  mass : ℚ
  type : String
deriving DecidableEq

/-- `models.Vehicle`: a container object; `objects` maps child names to
simple (non-container) objects, matching the source's
`Dict[str, Union[Person, Object]]` annotation. -/
structure Vehicle where
  name : String
  base_mass : ℚ
  objects : List (String × SimpleObj)
deriving DecidableEq

/-- Sum of the masses of a container's children. -/
def sumChildMass (l : List (String × SimpleObj)) : ℚ :=
  (l.map (fun p => p.2.mass)).sum

/-- A storable Python object: either a simple object or a vehicle. -/
inductive PyObj where
| simple : SimpleObj → PyObj
| vehicle : Vehicle → PyObj
deriving DecidableEq

/-- The object's `name` attribute. -/
def PyObj.name : PyObj → String
| .simple o => o.name
| .vehicle v => v.name

/-- The object's `type` attribute (`"vehicle"` for `models.Vehicle`). -/
def PyObj.type : PyObj → String
| .simple o => o.type
| .vehicle _ => "vehicle"

/-- The object's `mass`.  For a vehicle this is the `Vehicle.mass`
property: `base_mass + sum(o.mass for o in objects.values())`, so a
container's reported mass already includes its children. -/
def PyObj.mass : PyObj → ℚ
| .simple o => o.mass
| .vehicle v => v.base_mass + sumChildMass v.objects

/-! ## Association lists

Python `dict`s are modelled as insertion-ordered association lists with
distinct keys; `upsert` is `d[k] = v` (replace if present, else append). -/

/-- Lookup in an association list (`d.get(k)` / `d[k]`). -/
def lookupA {α : Type} : List (String × α) → String → Option α
| [], _ => none
| (k', v) :: t, k => if k' = k then some v else lookupA t k

/-- `d[k] = v` on a Python dict: replace the binding if the key is
present, otherwise append it. -/
def upsert {α : Type} : List (String × α) → String → α → List (String × α)
| [], k, v => [(k, v)]
| (k', v') :: t, k, v => if k' = k then (k, v) :: t else (k', v') :: upsert t k v

/-! ## `DictDeck` (`spaceship/python.py`) -/

/-- Errors raised by deck stores.  `spaceship/errors.py` is not present
under `src/`; modelled from the spec: `CapacityExceeded` (the source's
`NoCapacityError`) is a logical rejection of a budget-violating write. -/
inductive DeckErr where
| noCapacity
deriving DecidableEq

/-- The in-memory deck: `data['decks'][name] = {'objects': {}}` plus the
fixed `max_storage_kg`. -/
structure DictDeck where
  max_storage_kg : ℚ
  objects : List (String × PyObj)
deriving DecidableEq

/-- `DictDeck.stored_mass`: `sum([obj.mass for obj in data['objects'].values()])`. -/
def DictDeck.stored_mass (d : DictDeck) : ℚ :=
  (d.objects.map (fun p => p.2.mass)).sum

/-- `DictDeck.capacity_mass`: `max_storage_kg - stored_mass`. -/
def DictDeck.capacity_mass (d : DictDeck) : ℚ :=
  d.max_storage_kg - d.stored_mass

/-- `DictDeck.store`: raise `NoCapacityError` if `object.mass >
capacity_mass`, else `storage[object.name] = object`.  A raised exception
leaves the caller's deck untouched, which the functional model renders by
returning no new state. -/
def DictDeck.store (d : DictDeck) (object : PyObj) : Except DeckErr DictDeck :=
  if object.mass > d.capacity_mass then .error .noCapacity
  else .ok ⟨d.max_storage_kg, upsert d.objects object.name object⟩

/-- A fresh deck of the given capacity (`{'objects': {}}`). -/
def emptyDeck (max_storage_kg : ℚ) : DictDeck := ⟨max_storage_kg, []⟩

/-- A single caller issuing a sequence of `store` calls, continuing past
failed calls (an exception propagates to the caller and changes nothing). -/
def runStores : DictDeck → List PyObj → DictDeck
| d, [] => d
| d, o :: rest =>
  match d.store o with
  | .ok d' => runStores d' rest
  | .error _ => runStores d rest

/-! ## `DictThruster` (`spaceship/python.py`) -/

/-- Errors escaping a `fire` call.  The generator body performs two bare
float divisions; a zero divisor raises Python's `ZeroDivisionError`. -/
inductive FireErr where
| zeroDivision
deriving DecidableEq

/-- One yielded burn step together with the increment the generator adds
to the shared speed cell immediately before yielding. -/
structure BurnStep where
  speed_inc : ℚ
  fuel_burned : ℚ
  next_burn : ℚ
deriving DecidableEq

/-- `DictThruster.THRUST_PER_SECOND_NEWTONS = 5e7`. -/
def THRUST_PER_SECOND_NEWTONS : ℚ := 50000000

/-- `DictThruster.FUEL_BURNED_PER_SECOND = 2`. -/
def FUEL_BURNED_PER_SECOND : ℚ := 2

/-- `acceleration_per_second_kmh = ((5e7 - ship_weight_kg) / ship_mass) * 3.6`,
in double arithmetic. -/
def accel_kmh (ship_weight_kg ship_mass : ℚ) : ℚ :=
  fmul (fdiv (fsub THRUST_PER_SECOND_NEWTONS ship_weight_kg) ship_mass) f3_6

/-- `target_velocity.speed_kmh / acceleration_per_second_kmh` (double
division). -/
def seconds_total (target_velocity : Velocity) (ship_weight_kg ship_mass : ℚ) : ℚ :=
  fdiv target_velocity.speed_kmh (accel_kmh ship_weight_kg ship_mass)

/-- `int(seconds_to_burn)`, the whole part returned by `math.modf`. -/
def target_burn (target_velocity : Velocity) (ship_weight_kg ship_mass : ℚ) : ℤ :=
  truncQ (seconds_total target_velocity ship_weight_kg ship_mass)

/-- The fractional part returned by `math.modf` (exact: the fractional
part of a binary double is itself exactly representable). -/
def remainder (target_velocity : Velocity) (ship_weight_kg ship_mass : ℚ) : ℚ :=
  seconds_total target_velocity ship_weight_kg ship_mass
    - target_burn target_velocity ship_weight_kg ship_mass

/-- The steps produced by draining the `fire` generator: one step per
loop iteration of `range(target_burn)` (note the source computes
`next_burn = FUEL_BURNED_PER_SECOND if i < target_burn else remainder`
inside that loop), then one final fractional step if `remainder` is
truthy (nonzero). -/
def burnSteps (target_velocity : Velocity) (ship_weight_kg ship_mass : ℚ) : List BurnStep :=
  (List.range (target_burn target_velocity ship_weight_kg ship_mass).toNat).map (fun i =>
    ⟨accel_kmh ship_weight_kg ship_mass,
     FUEL_BURNED_PER_SECOND,
     if (i : ℤ) < target_burn target_velocity ship_weight_kg ship_mass
     then FUEL_BURNED_PER_SECOND
     else remainder target_velocity ship_weight_kg ship_mass⟩)
  ++ (if remainder target_velocity ship_weight_kg ship_mass ≠ 0 then
        [⟨fmul (accel_kmh ship_weight_kg ship_mass)
            (remainder target_velocity ship_weight_kg ship_mass),
          fmul FUEL_BURNED_PER_SECOND
            (remainder target_velocity ship_weight_kg ship_mass), 0⟩]
      else [])

/-- `DictThruster.fire`.  The two divisions raise `ZeroDivisionError`
when the ship mass, respectively the computed acceleration, is zero;
otherwise the drained generator yields `burnSteps`. -/
def fire (target_velocity : Velocity) (ship_weight_kg ship_mass : ℚ) :
    Except FireErr (List BurnStep) :=
  if ship_mass = 0 then .error .zeroDivision
  else if accel_kmh ship_weight_kg ship_mass = 0 then .error .zeroDivision
  else .ok (burnSteps target_velocity ship_weight_kg ship_mass)

/-! ## `DictShip` (`spaceship/python.py` + `spaceship/protocols.py`) -/

/-- One event's `data` record, `{'fuel_burned': …, 'next_burn': …}`.
Timestamps belong to the out-of-scope `EventLog` collaborator; the log is
kept in insertion order. -/
structure EventData where
  fuel_burned : ℚ
  next_burn : ℚ
deriving DecidableEq

/-- The `DictShip` together with its backing `data` dict: the per-direction
speed cells, `current_fuel`, `current_gravity`, `base_mass`, the
`low_fuel_threshold`, the decks and the event log. -/
structure DictShip where
  speed_kmh : Direction → ℚ
  current_fuel : ℚ
  current_gravity : ℚ
  base_mass : ℚ
  low_fuel_threshold : ℚ
  decks : List DictDeck
  event_log : List EventData

/-- `Ship.mass` (protocols.py): `base_mass + sum(deck.stored_mass for deck
in decks.values())`. -/
def DictShip.mass (s : DictShip) : ℚ :=
  s.base_mass + (s.decks.map DictDeck.stored_mass).sum

/-- `Ship.weight_kg` (protocols.py): `mass * current_gravity` (double
multiplication). -/
def DictShip.weight_kg (s : DictShip) : ℚ :=
  fmul s.mass s.current_gravity

/-- `DictShip.fuel` (python.py): `current_fuel` minus the sum of
`fuel_burned` over every logged event. -/
def DictShip.fuel_of_log (current_fuel : ℚ) (log : List EventData) : ℚ :=
  current_fuel - (log.map (fun e => e.fuel_burned)).sum

/-- The consumption loop of `Ship.accelerate`: draw a step, log it, then
stop if `self.fuel - low_fuel_threshold < next_burn`, where `self.fuel`
subtracts every burn logged so far (`burned` accumulates the sum of
`fuel_burned` over the log, including the event just appended). -/
def consumeSteps (current_fuel low_fuel_threshold : ℚ) :
    List BurnStep → ℚ → List BurnStep
| [], _ => []
| step :: rest, burned =>
  if current_fuel - (burned + step.fuel_burned) - low_fuel_threshold < step.next_burn
  then [step]
  else step :: consumeSteps current_fuel low_fuel_threshold rest (burned + step.fuel_burned)

/-- `Ship.accelerate` (protocols.py): pull steps from
`thruster.fire(target_velocity, weight_kg, mass)` one at a time; for each
consumed step the generator has already added its increment to the speed
cell for the target direction, and the loop appends the event and applies
the low-fuel cancellation rule.  A `ZeroDivisionError` from the generator
body escapes before any event is logged. -/
def DictShip.accelerate (s : DictShip) (target_velocity : Velocity) :
    Except FireErr DictShip :=
  match fire target_velocity s.weight_kg s.mass with
  | .error e => .error e
  | .ok steps =>
    let prior_burned := (s.event_log.map (fun e => e.fuel_burned)).sum
    let consumed := consumeSteps s.current_fuel s.low_fuel_threshold steps prior_burned
    .ok ⟨fun d => if d = target_velocity.direction then
            List.foldl fadd (s.speed_kmh d) (consumed.map (fun st => st.speed_inc))
          else s.speed_kmh d,
         s.current_fuel, s.current_gravity, s.base_mass, s.low_fuel_threshold,
         s.decks,
         s.event_log ++ consumed.map (fun st => ⟨st.fuel_burned, st.next_burn⟩)⟩

/-! ## `HashDeck` (`spaceship/redis.py`)

The backing Redis store is an external collaborator; we model exactly the
primitives the deck uses: hashes (`hset` with field-merge semantics,
`hgetall`), sorted-set membership (`zadd`/`zrange`, kept in insertion
order — the verified properties do not depend on Redis's score ordering)
and numeric counters (`incrby`, modelled as numeric increment).  The
marshmallow serialization collaborator is modelled at the level of the
dumped field dictionaries. -/

/-- A value stored in a Redis hash field: a string or a number. -/
inductive FieldVal where
| s : String → FieldVal
| q : ℚ → FieldVal
deriving DecidableEq

/-- A dumped record: a field-name/value dictionary. -/
abbrev FieldMap := List (String × FieldVal)

/-- The visible Redis keyspace state. -/
structure RedisState where
  hashes : List (String × FieldMap)
  zsets : List (String × List (String × ℚ))
  strings : List (String × ℚ)
deriving DecidableEq

/-- `HSET key mapping`: merge the given fields into the hash at `key`
(existing fields with other names survive). -/
def RedisState.hset (st : RedisState) (key : String) (mapping : FieldMap) : RedisState :=
  let old := (lookupA st.hashes key).getD []
  let merged := mapping.foldl (fun acc p => upsert acc p.1 p.2) old
  ⟨upsert st.hashes key merged, st.zsets, st.strings⟩

/-- `HGETALL key` (an absent key reads as the empty dict). -/
def RedisState.hgetall (st : RedisState) (key : String) : FieldMap :=
  (lookupA st.hashes key).getD []

/-- `ZADD key {member: score}`. -/
def RedisState.zadd (st : RedisState) (key member : String) (score : ℚ) : RedisState :=
  let old := (lookupA st.zsets key).getD []
  ⟨st.hashes, upsert st.zsets key (upsert old member score), st.strings⟩

/-- `ZRANGE key 0 -1`: all members. -/
def RedisState.zrangeAll (st : RedisState) (key : String) : List String :=
  ((lookupA st.zsets key).getD []).map (fun p => p.1)

/-- `INCRBY key amount` (absent counters read as 0). -/
def RedisState.incrby (st : RedisState) (key : String) (amount : ℚ) : RedisState :=
  ⟨st.hashes, st.zsets, upsert st.strings key (((lookupA st.strings key).getD 0) + amount)⟩

/-- `keys.PREFIX` with the default `spaceship:test` prefix. -/
def keyPREFIX : String := "spaceship:test"

/-- `keys.deck_stored_mass`. -/
def deck_stored_mass_key (deck_name : String) : String :=
  keyPREFIX ++ ":deck:" ++ deck_name ++ ":stored_mass"

/-- `keys.deck_items_set`. -/
def deck_items_set (deck_name : String) : String :=
  keyPREFIX ++ ":deck:" ++ deck_name ++ ":items"

/-- `keys.deck_item`. -/
def deck_item (deck_name item_name : String) : String :=
  keyPREFIX ++ ":" ++ deck_name ++ ":" ++ item_name

/-- `keys.container_item`. -/
def container_item (container_name item_name : String) : String :=
  keyPREFIX ++ ":" ++ container_name ++ ":" ++ item_name

/-- `keys.container_items_set`. -/
def container_items_set (container_name : String) : String :=
  keyPREFIX ++ ":container:" ++ container_name ++ ":items"

/-- `person_schema.dump` / `object_schema.dump`: the dataclass fields. -/
def simple_dump (o : SimpleObj) : FieldMap :=
  [("name", .s o.name), ("mass", .q o.mass), ("type", .s o.type)]

/-- `vehicle_schema.dump` with the `objects` entry popped, as
`store` does before `hset` (Redis hashes cannot nest collections). -/
def vehicle_dump_hash (v : Vehicle) : FieldMap :=
  [("name", .s v.name), ("base_mass", .q v.base_mass), ("type", .s ("vehicle"))]

/-- Errors of the Redis-backed deck paths. `noCapacity` is
`NoCapacityError`; `invalidItem` is `redis.InvalidItem`; `keyError`,
`attributeError` and `validationFailure` stand for the uncaught Python
exceptions of the corresponding code paths (`obj['type']` on a missing
key, `schema.dump` on `None`, and a strict marshmallow load). -/
inductive RedisErr where
| noCapacity
| invalidItem (name : String)
| keyError
| attributeError
| validationFailure
| unexpectedNested
deriving DecidableEq

/-- `object_schemas_by_type.get(type)` is defined for exactly these tags. -/
def known_type (t : String) : Prop :=
  t = "person" ∨ t = "object" ∨ t = "vehicle"

instance (t : String) : Decidable (known_type t) := by
  unfold known_type; infer_instance

/-- The string value of the dumped `name` field, or `'Unknown'`
(`load_object`'s `item_name`). -/
def dumped_name (fm : FieldMap) : String :=
  match lookupA fm ("name") with
  | some (.s n) => n
  | _ => "Unknown"

/-- The strict marshmallow load of a `person`/`object` hash: `name` and
`mass` are required with these shapes and no unknown field is accepted. -/
def load_simple (fm : FieldMap) (t : String) : Except RedisErr PyObj :=
  match lookupA fm ("name"), lookupA fm ("mass") with
  | some (.s n), some (.q m) =>
    if fm.all (fun p => p.1 = "name" ∨ p.1 = "mass" ∨ p.1 = "type")
    then .ok (.simple ⟨n, m, t⟩) else .error .validationFailure
  | _, _ => .error .validationFailure

/-- The strict marshmallow load of a `vehicle` hash: `name` and
`base_mass` required; `objects` defaults to the empty dict (the hash
never carries it, having been popped on store). -/
def load_vehicle (fm : FieldMap) : Except RedisErr PyObj :=
  match lookupA fm ("name"), lookupA fm ("base_mass") with
  | some (.s n), some (.q bm) =>
    if fm.all (fun p => p.1 = "name" ∨ p.1 = "base_mass" ∨ p.1 = "type")
    then .ok (.vehicle ⟨n, bm, []⟩) else .error .validationFailure
  | _, _ => .error .validationFailure

/-- `redis.load_object`: dispatch on the dumped `type` tag; a missing
`type` field is a `KeyError`, an unknown tag raises `InvalidItem`. -/
def load_object (fm : FieldMap) : Except RedisErr PyObj :=
  match lookupA fm ("type") with
  | none => .error .keyError
  | some (.q _) => .error (.invalidItem (dumped_name fm))
  | some (.s t) =>
    if t = "person" ∨ t = "object" then load_simple fm t
    else if t = "vehicle" then load_vehicle fm
    else .error (.invalidItem (dumped_name fm))

/-- The deck handle: a name and the constant capacity. -/
structure HashDeck where
  name : String
  max_storage_kg : ℚ

/-- `HashDeck.stored_mass`: read the counter (0 when absent). -/
def HashDeck.stored_mass (d : HashDeck) (st : RedisState) : ℚ :=
  (lookupA st.strings (deck_stored_mass_key d.name)).getD 0

/-- `HashDeck.capacity_mass`. -/
def HashDeck.capacity_mass (d : HashDeck) (st : RedisState) : ℚ :=
  d.max_storage_kg - d.stored_mass st

/-- The dumped top-level record `schema.dump(obj)` (with `objects`
popped); `None` when the type tag has no schema, in which case
`schema.dump` raises `AttributeError`. -/
def dump_for_store (o : PyObj) : Option FieldMap :=
  match o with
  | .simple so => if so.type = "person" ∨ so.type = "object" then some (simple_dump so)
                  else none
  | .vehicle v => some (vehicle_dump_hash v)

/-- The per-child writes of `HashDeck.store`: for each contained object,
`zadd` it into the container's item set and `hset` its own hash. -/
def store_children (container_name : String) :
    RedisState → List (String × SimpleObj) → RedisState
| st, [] => st
| st, (_, c) :: rest =>
  store_children container_name
    ((st.zadd (container_items_set container_name) c.name c.mass).hset
      (container_item container_name c.name) (simple_dump c)) rest

/-- `HashDeck.store` (the `redis.transaction`-wrapped version), as run by
one uncontended caller: check capacity, then commit the buffered writes
(children first, then the deck item-set entry, the item hash, and the
mass counter).  An exception inside the transaction body (unknown
top-level or child type) aborts before `EXEC`, leaving the state
unchanged. -/
def HashDeck.store (d : HashDeck) (obj : PyObj) (st : RedisState) :
    Except RedisErr RedisState :=
  if obj.mass > d.capacity_mass st then .error .noCapacity
  else match dump_for_store obj with
  | none => .error .attributeError
  | some object_dict =>
    let children : List (String × SimpleObj) :=
      match obj with
      | .vehicle v => v.objects
      | .simple _ => []
    if children.all (fun p => p.2.type = "person" ∨ p.2.type = "object") then
      let st1 := store_children obj.name st children
      let st2 := st1.zadd (deck_items_set d.name) obj.name obj.mass
      let st3 := st2.hset (deck_item d.name obj.name) object_dict
      .ok (st3.incrby (deck_stored_mass_key d.name) obj.mass)
    else .error .keyError

/-- Resolving a container's children on `get`: load each referenced child
hash; any failing load aborts the whole `get` (no partial object).  A
child whose record loads as a vehicle falls outside `models.Vehicle`'s
`Dict[str, Union[Person, Object]]` data model and cannot arise from
`HashDeck.store`; it is mapped to an error. -/
def load_children (st : RedisState) (container_name : String) :
    List String → Except RedisErr (List (String × SimpleObj))
| [] => .ok []
| n :: rest =>
  match load_object (st.hgetall (container_item container_name n)) with
  | .error e => .error e
  | .ok (.vehicle _) => .error .unexpectedNested
  | .ok (.simple so) =>
    match load_children st container_name rest with
    | .error e => .error e
    | .ok l => .ok ((so.name, so) :: l)

/-- `HashDeck.get`: load the item hash; for a vehicle, enumerate the
container item set, resolve every child and attach each under
`obj.objects[child.name]`. -/
def HashDeck.get (d : HashDeck) (name : String) (st : RedisState) :
    Except RedisErr PyObj :=
  match load_object (st.hgetall (deck_item d.name name)) with
  | .error e => .error e
  | .ok (.simple o) => .ok (.simple o)
  | .ok (.vehicle v) =>
    match load_children st v.name (st.zrangeAll (container_items_set v.name)) with
    | .error e => .error e
    | .ok kids =>
      .ok (.vehicle ⟨v.name, v.base_mass,
        kids.foldl (fun acc p => upsert acc p.1 p.2) v.objects⟩)

/-! ## The worked scenarios of the spec (`tests/test_python.py` fixture) -/

/-- `Velocity(500, Direction.N)`. -/
def tvA : Velocity := ⟨500, .N⟩

/-- The fixture's empty `main` deck of capacity 1000 kg. -/
def mainDeckA : DictDeck := emptyDeck 1000

/-- Scenario A: base mass 2e6 kg, gravity 9.8, fuel 100000, low-fuel
threshold 100, one empty 1000 kg deck, empty log. -/
def shipA : DictShip := ⟨fun _ => 0, 100000, g9_8, 2000000, 100, [mainDeckA], []⟩

/-- Scenario B: as scenario A but `current_fuel = 102`. -/
def shipB : DictShip := ⟨fun _ => 0, 102, g9_8, 2000000, 100, [mainDeckA], []⟩

/-- The 750 kg `loader mech` vehicle. -/
def loader : PyObj := .vehicle ⟨("loader mech"), 750, []⟩

/-- The 1500 kg `loader mech` vehicle of the over-capacity scenario. -/
def loader1500 : PyObj := .vehicle ⟨("loader mech"), 1500, []⟩

/-- The main deck after storing the 750 kg loader. -/
def loadedDeck : DictDeck := runStores (emptyDeck 1000) [loader]

/-- Scenario A's ship with the 750 kg loader stored first. -/
def shipLoaded : DictShip := ⟨fun _ => 0, 100000, g9_8, 2000000, 100, [loadedDeck], []⟩

/-- Scenario A's ship with no fuel at all (for the first-step claim). -/
def shipNoFuel : DictShip := ⟨fun _ => 0, 0, g9_8, 2000000, 100, [mainDeckA], []⟩

/-- The burn steps of scenario A's fire call. -/
def stepsA : List BurnStep := (fire tvA shipA.weight_kg shipA.mass).toOption.getD []

/-- The event log of an accelerate result (empty on error). -/
def logOf (r : Except FireErr DictShip) : List EventData :=
  match r with
  | .ok s => s.event_log
  | .error _ => []

/-- The North speed cell of an accelerate result (0 on error). -/
def northSpeedOf (r : Except FireErr DictShip) : ℚ :=
  match r with
  | .ok s => s.speed_kmh .N
  | .error _ => 0

/-- The cancellation condition of `Ship.accelerate` evaluated just after
the event for step `j` (0-based) has been logged: the fuel left over the
threshold, with `b0` the fuel already burned before this call's first
step, is below that step's `next_burn` estimate. -/
def stopAfter (current_fuel low_fuel_threshold b0 : ℚ) (steps : List BurnStep) (j : ℕ) : Prop :=
  current_fuel - (b0 + ((steps.take (j + 1)).map (fun st => st.fuel_burned)).sum)
      - low_fuel_threshold
    < (steps.getD j ⟨0, 0, 0⟩).next_burn

/-- The steps of a fire call whose computed acceleration is negative
(ship weight 6e7 N exceeds the thrust). -/
def stepsNeg : List BurnStep := (fire tvA 60000000 2000000).toOption.getD []

/-- `Person(name="Bob", mass=86)`. -/
def bob : SimpleObj := ⟨("Bob"), 86, ("person")⟩

/-- `Vehicle(name="rover", objects={"Bob": bob}, base_mass=500)`. -/
def rover : Vehicle := ⟨("rover"), 500, [(("Bob"), bob)]⟩

/-- `HashDeck('main', redis, 1000)`. -/
def hdeckMain : HashDeck := ⟨("main"), 1000⟩

/-- A flushed (empty) Redis keyspace. -/
def st0 : RedisState := ⟨[], [], []⟩

/-- A demonstration store sequence: Bob (86 kg), the 750 kg loader, then
the over-capacity 1500 kg loader. -/
def demoObjs : List PyObj := [.simple bob, loader, loader1500]


/-! ## Supporting lemmas -/

lemma pow2_pos (e : ℤ) : 0 < pow2 e := by
  unfold pow2
  split
  · positivity
  · positivity

lemma roundHalfEven_nonneg (q : ℚ) (h : 0 ≤ q) : 0 ≤ roundHalfEven q := by
  unfold roundHalfEven
  have hn : (0 : ℤ) ≤ ⌊q⌋ := Int.floor_nonneg.mpr h
  split
  · exact hn
  · split
    · omega
    · split <;> omega

lemma roundDouble_nonneg (q : ℚ) (h : 0 ≤ q) : 0 ≤ roundDouble q := by
  unfold roundDouble
  by_cases h0 : q = 0
  · simp [h0]
  · have hq : 0 < q := lt_of_le_of_ne h (Ne.symm h0)
    have hnlt : ¬ q < 0 := not_lt.mpr h
    have hm : 0 ≤ roundHalfEven (|q| * pow2 (52 - expOf |q|)) :=
      roundHalfEven_nonneg _ (mul_nonneg (abs_nonneg q) (pow2_pos _).le)
    simp only [h0, if_false, hnlt]
    exact mul_nonneg (Int.cast_nonneg.mpr hm) (pow2_pos _).le

lemma roundDouble_nonpos (q : ℚ) (h : q ≤ 0) : roundDouble q ≤ 0 := by
  unfold roundDouble
  by_cases h0 : q = 0
  · simp [h0]
  · have hq : q < 0 := lt_of_le_of_ne h h0
    have hm : 0 ≤ roundHalfEven (|q| * pow2 (52 - expOf |q|)) :=
      roundHalfEven_nonneg _ (mul_nonneg (abs_nonneg q) (pow2_pos _).le)
    simp only [h0, if_false, hq, if_true]
    have : 0 ≤ (roundHalfEven (|q| * pow2 (52 - expOf |q|)) : ℚ) * pow2 (expOf |q| - 52) :=
      mul_nonneg (Int.cast_nonneg.mpr hm) (pow2_pos _).le
    linarith

/-- With a nonnegative target speed and positive acceleration, the
computed total burn time is nonnegative, so `int()` truncation is the
floor and the `modf` remainder is nonnegative. -/
lemma remainder_nonneg (tv : Velocity) (w m : ℚ) (hs : 0 ≤ tv.speed_kmh)
    (hacc : 0 < accel_kmh w m) :
    0 ≤ remainder tv w m ∧ target_burn tv w m = ⌊seconds_total tv w m⌋ := by
  have ht : 0 ≤ seconds_total tv w m := by
    unfold seconds_total fdiv
    exact roundDouble_nonneg _ (div_nonneg hs hacc.le)
  have htb : target_burn tv w m = ⌊seconds_total tv w m⌋ := by
    unfold target_burn truncQ
    simp [ht]
  refine ⟨?_, htb⟩
  unfold remainder
  rw [htb]
  have := Int.floor_le (seconds_total tv w m)
  linarith

lemma lookupA_upsert_self {α : Type} (l : List (String × α)) (k : String) (v : α) :
    lookupA (upsert l k v) k = some v := by
  induction l with
  | nil => simp [upsert, lookupA]
  | cons p t ih =>
    obtain ⟨k', v'⟩ := p
    by_cases h : k' = k
    · simp [upsert, h, lookupA]
    · simp [upsert, h, lookupA, ih]

lemma lookupA_upsert_ne {α : Type} (l : List (String × α)) (k : String) (v : α)
    (k' : String) (h : k ≠ k') : lookupA (upsert l k v) k' = lookupA l k' := by
  induction l with
  | nil => simp [upsert, lookupA, h]
  | cons p t ih =>
    obtain ⟨k₀, v₀⟩ := p
    by_cases h0 : k₀ = k
    · simp [upsert, h0, lookupA, h]
    · simp only [upsert, h0, if_false, lookupA]
      by_cases h1 : k₀ = k'
      · simp [h1]
      · simp [h1, ih]

lemma upsert_of_not_mem {α : Type} (l : List (String × α)) (k : String) (v : α)
    (h : k ∉ l.map Prod.fst) : upsert l k v = l ++ [(k, v)] := by
  induction l with
  | nil => simp [upsert]
  | cons p t ih =>
    obtain ⟨k₀, v₀⟩ := p
    simp only [List.map_cons, List.mem_cons] at h
    push_neg at h
    simp [upsert, Ne.symm h.1, ih h.2]

lemma mem_upsert {α : Type} (l : List (String × α)) (k : String) (v : α)
    (p : String × α) (h : p ∈ upsert l k v) : p = (k, v) ∨ p ∈ l := by
  induction l with
  | nil => simpa [upsert] using h
  | cons q t ih =>
    obtain ⟨k₀, v₀⟩ := q
    by_cases h0 : k₀ = k
    · simp only [upsert, h0, if_true, List.mem_cons] at h
      rcases h with h | h
      · exact Or.inl h
      · exact Or.inr (List.mem_cons_of_mem _ h)
    · simp only [upsert, h0, if_false, List.mem_cons] at h
      rcases h with h | h
      · exact Or.inr (by simp [h])
      · rcases ih h with h' | h'
        · exact Or.inl h'
        · exact Or.inr (List.mem_cons_of_mem _ h')

lemma sum_upsert_le (l : List (String × PyObj)) (k : String) (o : PyObj)
    (hl : ∀ p ∈ l, 0 ≤ p.2.mass) :
    ((upsert l k o).map (fun p => p.2.mass)).sum
      ≤ (l.map (fun p => p.2.mass)).sum + o.mass := by
  induction l with
  | nil => simp [upsert]
  | cons p t ih =>
    obtain ⟨k₀, v₀⟩ := p
    by_cases h0 : k₀ = k
    · simp only [upsert, h0, if_true, List.map_cons, List.sum_cons]
      have hv : 0 ≤ v₀.mass := hl (k₀, v₀) (by simp)
      linarith
    · simp only [upsert, h0, if_false, List.map_cons, List.sum_cons]
      have := ih (fun p hp => hl p (List.mem_cons_of_mem _ hp))
      linarith

/-- The invariant of a single-caller sequence of `DictDeck.store` calls:
the capacity bound and the nonnegativity of every stored mass are
preserved, and the capacity constant never changes. -/
lemma runStores_inv (objs : List PyObj) (d : DictDeck)
    (hd : ∀ p ∈ d.objects, 0 ≤ p.2.mass)
    (hle : d.stored_mass ≤ d.max_storage_kg)
    (hm : ∀ o ∈ objs, 0 ≤ o.mass) :
    (runStores d objs).max_storage_kg = d.max_storage_kg
    ∧ (∀ p ∈ (runStores d objs).objects, 0 ≤ p.2.mass)
    ∧ (runStores d objs).stored_mass ≤ (runStores d objs).max_storage_kg := by
  induction objs generalizing d with
  | nil => exact ⟨rfl, hd, by simpa using hle⟩
  | cons o rest ih =>
    have ho : 0 ≤ o.mass := hm o (by simp)
    have hm' : ∀ o' ∈ rest, 0 ≤ o'.mass := fun o' h => hm o' (List.mem_cons_of_mem _ h)
    by_cases hc : o.mass > d.capacity_mass
    · have hstore : d.store o = .error .noCapacity := by simp [DictDeck.store, hc]
      simp only [runStores, hstore]
      exact ih d hd hle hm'
    · have hstore : d.store o = .ok ⟨d.max_storage_kg, upsert d.objects o.name o⟩ := by
        simp [DictDeck.store, hc]
      simp only [runStores, hstore]
      have hcap : o.mass ≤ d.max_storage_kg - d.stored_mass := by
        unfold DictDeck.capacity_mass at hc
        linarith [not_lt.mp hc]
      have hd' : ∀ p ∈ upsert d.objects o.name o, 0 ≤ p.2.mass := by
        intro p hp
        rcases mem_upsert _ _ _ _ hp with h | h
        · subst h; exact ho
        · exact hd p h
      have hle' : ((upsert d.objects o.name o).map (fun p => p.2.mass)).sum
          ≤ d.max_storage_kg := by
        have := sum_upsert_le d.objects o.name o hd
        unfold DictDeck.stored_mass at hcap hle
        linarith
      exact ih ⟨d.max_storage_kg, upsert d.objects o.name o⟩ hd' hle' hm'

lemma consumeSteps_take (f thr : ℚ) :
    ∀ (steps : List BurnStep) (b0 : ℚ),
      consumeSteps f thr steps b0 = steps.take (consumeSteps f thr steps b0).length := by
  intro steps
  induction steps with
  | nil => intro b0; rfl
  | cons step rest ih =>
    intro b0
    by_cases hc : f - (b0 + step.fuel_burned) - thr < step.next_burn
    · simp [consumeSteps, hc]
    · have hstep : consumeSteps f thr (step :: rest) b0
          = step :: consumeSteps f thr rest (b0 + step.fuel_burned) := by
        rw [consumeSteps, if_neg hc]
      rw [hstep, List.length_cons, List.take_succ_cons]
      exact congrArg (fun t => step :: t) (ih (b0 + step.fuel_burned))

lemma stopAfter_zero (f thr b0 : ℚ) (step : BurnStep) (rest : List BurnStep) :
    stopAfter f thr b0 (step :: rest) 0
      ↔ f - (b0 + step.fuel_burned) - thr < step.next_burn := by
  unfold stopAfter
  simp

lemma stopAfter_cons (f thr b0 : ℚ) (step : BurnStep) (rest : List BurnStep) (j : ℕ) :
    stopAfter f thr b0 (step :: rest) (j + 1)
      ↔ stopAfter f thr (b0 + step.fuel_burned) rest j := by
  unfold stopAfter
  have h : b0 + (step.fuel_burned + ((rest.take (j + 1)).map (fun st => st.fuel_burned)).sum)
      = (b0 + step.fuel_burned) + ((rest.take (j + 1)).map (fun st => st.fuel_burned)).sum := by
    ring
  simp only [List.take_succ_cons, List.map_cons, List.sum_cons, List.getD_cons_succ, h]

lemma consumeSteps_no_early_stop (f thr : ℚ) :
    ∀ (steps : List BurnStep) (b0 : ℚ) (j : ℕ),
      j + 1 < (consumeSteps f thr steps b0).length → ¬ stopAfter f thr b0 steps j := by
  intro steps
  induction steps with
  | nil => intro b0 j h; simp [consumeSteps] at h
  | cons step rest ih =>
    intro b0 j h
    by_cases hc : f - (b0 + step.fuel_burned) - thr < step.next_burn
    · simp [consumeSteps, hc] at h
    · simp only [consumeSteps, hc, if_false, List.length_cons] at h
      cases j with
      | zero => rw [stopAfter_zero]; exact hc
      | succ j' =>
        rw [stopAfter_cons]
        exact ih (b0 + step.fuel_burned) j' (by omega)

lemma consumeSteps_ne_nil (f thr b0 : ℚ) (step : BurnStep) (rest : List BurnStep) :
    ∃ t, consumeSteps f thr (step :: rest) b0 = step :: t := by
  by_cases hc : f - (b0 + step.fuel_burned) - thr < step.next_burn
  · exact ⟨[], by simp [consumeSteps, hc]⟩
  · exact ⟨consumeSteps f thr rest (b0 + step.fuel_burned), by rw [consumeSteps, if_neg hc]⟩

lemma consumeSteps_stop_last (f thr : ℚ) :
    ∀ (steps : List BurnStep) (b0 : ℚ),
      (consumeSteps f thr steps b0).length < steps.length →
      stopAfter f thr b0 steps ((consumeSteps f thr steps b0).length - 1) := by
  intro steps
  induction steps with
  | nil => intro b0 h; simp [consumeSteps] at h
  | cons step rest ih =>
    intro b0 h
    by_cases hc : f - (b0 + step.fuel_burned) - thr < step.next_burn
    · simp only [consumeSteps, hc, if_true, List.length_singleton]
      exact (stopAfter_zero f thr b0 step rest).mpr hc
    · simp only [consumeSteps, hc, if_false, List.length_cons] at h ⊢
      have hlt : (consumeSteps f thr rest (b0 + step.fuel_burned)).length < rest.length := by
        omega
      have hL : 1 ≤ (consumeSteps f thr rest (b0 + step.fuel_burned)).length := by
        cases rest with
        | nil => simp [consumeSteps] at hlt
        | cons r0 rrest =>
          obtain ⟨t, ht⟩ := consumeSteps_ne_nil f thr (b0 + step.fuel_burned) r0 rrest
          rw [ht]
          simp
      rw [show (consumeSteps f thr rest (b0 + step.fuel_burned)).length + 1 - 1
          = ((consumeSteps f thr rest (b0 + step.fuel_burned)).length - 1) + 1 by omega]
      rw [stopAfter_cons]
      exact ih (b0 + step.fuel_burned) hlt

/-- Unfolding `Ship.accelerate` on a successful fire call: the final
state exists, its log extends the old one by exactly the consumed steps'
events, and the target direction's speed cell accumulates exactly the
consumed steps' increments. -/
lemma accelerate_spec (s : DictShip) (tv : Velocity) (steps : List BurnStep)
    (hf : fire tv s.weight_kg s.mass = .ok steps) :
    ∃ s', s.accelerate tv = .ok s'
    ∧ s'.event_log = s.event_log ++
        (consumeSteps s.current_fuel s.low_fuel_threshold steps
          ((s.event_log.map (fun e => e.fuel_burned)).sum)).map
          (fun st => ⟨st.fuel_burned, st.next_burn⟩)
    ∧ s'.speed_kmh tv.direction = List.foldl fadd (s.speed_kmh tv.direction)
        ((consumeSteps s.current_fuel s.low_fuel_threshold steps
          ((s.event_log.map (fun e => e.fuel_burned)).sum)).map (fun st => st.speed_inc)) := by
  refine ⟨_, by unfold DictShip.accelerate; rw [hf], rfl, by simp⟩

/-! ## The claims -/

/-- C2.  `DictDeck.store` fails with the capacity error exactly when
`obj.mass + storedMass > maxMassKg` (a mass exactly filling the deck
succeeds), and a failing call commits nothing; concretely, storing the
1500 kg loader in an empty 1000 kg deck raises the error and leaves the
deck (hence `storedMass = 0`) untouched. -/
theorem spec_C2 :
    (∀ (d : DictDeck) (o : PyObj),
      ((∃ d', d.store o = .ok d') ↔ o.mass + d.stored_mass ≤ d.max_storage_kg)
      ∧ (o.mass + d.stored_mass > d.max_storage_kg → d.store o = .error .noCapacity))
    ∧ (emptyDeck 1000).store loader1500 = .error .noCapacity
    ∧ runStores (emptyDeck 1000) [loader1500] = emptyDeck 1000
    ∧ (emptyDeck 1000).stored_mass = 0 := by
  refine ⟨?_, by decide, by decide, by decide⟩
  intro d o
  constructor
  · constructor
    · rintro ⟨d', hd'⟩
      unfold DictDeck.store at hd'
      split at hd'
      · exact absurd hd' (by simp)
      · rename_i hc
        unfold DictDeck.capacity_mass at hc
        have := not_lt.mp hc
        linarith
    · intro h
      have hc : ¬ (o.mass > d.capacity_mass) := by
        unfold DictDeck.capacity_mass
        push_neg
        linarith
      exact ⟨⟨d.max_storage_kg, upsert d.objects o.name o⟩, by simp [DictDeck.store, hc]⟩
  · intro h
    have hc : o.mass > d.capacity_mass := by
      unfold DictDeck.capacity_mass
      linarith
    simp [DictDeck.store, hc]

/-- Witness for C2: storing Bob (86 kg) in an empty 1000 kg deck
succeeds, and the over-capacity branch of the same theorem applies to the
1500 kg loader. -/
theorem spec_C2_witness :
    (∃ d', (emptyDeck 1000).store (.simple bob) = .ok d')
    ∧ (emptyDeck 1000).store loader1500 = .error .noCapacity :=
  ⟨((spec_C2.1 (emptyDeck 1000) (.simple bob)).1).mpr (by decide),
   (spec_C2.1 (emptyDeck 1000) loader1500).2 (by decide)⟩

/-- C3 (amended).  In the whole-second loop the guard `i < target_burn`
is always true, so every whole-second element is
`(FUEL_PER_SECOND, FUEL_PER_SECOND)` — the fractional estimate branch of
the conditional is unreachable, including on the final whole-second
step. -/
theorem spec_C3 (tv : Velocity) (w m : ℚ)
    (hacc : 0 < accel_kmh w m) (hwhole : 1 ≤ target_burn tv w m)
    (hrem : 0 < remainder tv w m)
    (i : ℕ) (hi : i < (target_burn tv w m).toNat) :
    (burnSteps tv w m).getD i ⟨0, 0, 0⟩
      = ⟨accel_kmh w m, FUEL_BURNED_PER_SECOND, FUEL_BURNED_PER_SECOND⟩ := by
  have hiz : (i : ℤ) < target_burn tv w m := Int.lt_toNat.mp hi
  unfold burnSteps
  rw [List.getD_eq_getElem?_getD, List.getElem?_append,
    if_pos (by simpa using hi), List.getElem?_map, List.getElem?_range hi]
  simp [hiz]

/-- Counterexample to C3 as stated: in scenario A the final whole-second
element (index 8 of 9) carries `next_burn = FUEL_PER_SECOND = 2`, not the
fractional-remainder-scaled fuel, even though the claim's hypotheses
(positive acceleration, at least one whole second, positive remainder)
all hold. -/
theorem spec_C3_ce :
    0 < accel_kmh shipA.weight_kg shipA.mass
    ∧ 1 ≤ target_burn tvA shipA.weight_kg shipA.mass
    ∧ 0 < remainder tvA shipA.weight_kg shipA.mass
    ∧ (target_burn tvA shipA.weight_kg shipA.mass).toNat = 9
    ∧ stepsA.getD 8 ⟨0, 0, 0⟩
        = ⟨accel_kmh shipA.weight_kg shipA.mass, 2, 2⟩
    ∧ (stepsA.getD 8 ⟨0, 0, 0⟩).next_burn
        ≠ fmul FUEL_BURNED_PER_SECOND (remainder tvA shipA.weight_kg shipA.mass)
    ∧ (stepsA.getD 8 ⟨0, 0, 0⟩).next_burn
        ≠ remainder tvA shipA.weight_kg shipA.mass := by
  refine ⟨by decide, by decide, by decide, by decide, by decide, by decide, by decide⟩

/-- Witness for C3 (amended) at scenario A's final whole-second step. -/
theorem spec_C3_witness :
    (burnSteps tvA shipA.weight_kg shipA.mass).getD 8 ⟨0, 0, 0⟩
      = ⟨accel_kmh shipA.weight_kg shipA.mass,
         FUEL_BURNED_PER_SECOND, FUEL_BURNED_PER_SECOND⟩ :=
  spec_C3 tvA shipA.weight_kg shipA.mass (by decide) (by decide) (by decide) 8 (by decide)

/-- C5.  With positive acceleration (and the data model's nonnegative
target speed) a fire call never errors and produces exactly
`target_burn` whole-second elements followed by exactly one
`(FUEL_PER_SECOND * remainder, 0)` element iff the remainder is positive,
after which the sequence ends; `target_burn` is the floor of the computed
total seconds.  Concretely, scenario A logs exactly 10 events whose last
is `{fuel_burned: 0.27485380116959135, next_burn: 0}`. -/
theorem spec_C5 (tv : Velocity) (w m : ℚ) (hs : 0 ≤ tv.speed_kmh)
    (hm : m ≠ 0) (hacc : 0 < accel_kmh w m) :
    fire tv w m = .ok (burnSteps tv w m)
    ∧ (burnSteps tv w m).length
        = (target_burn tv w m).toNat + (if 0 < remainder tv w m then 1 else 0)
    ∧ (0 < remainder tv w m →
        (burnSteps tv w m).getLastD ⟨0, 0, 0⟩
          = ⟨fmul (accel_kmh w m) (remainder tv w m),
             fmul FUEL_BURNED_PER_SECOND (remainder tv w m), 0⟩)
    ∧ target_burn tv w m = ⌊seconds_total tv w m⌋
    ∧ 0 ≤ remainder tv w m
    ∧ (logOf (shipA.accelerate tvA)).length = 10
    ∧ (logOf (shipA.accelerate tvA)).getLastD ⟨1, 1⟩
        = ⟨roundDouble (0.27485380116959135 : ℚ), 0⟩ := by
  obtain ⟨hrem, htb⟩ := remainder_nonneg tv w m hs hacc
  refine ⟨?_, ?_, ?_, htb, hrem, by decide, by decide⟩
  · simp [fire, hm, ne_of_gt hacc]
  · unfold burnSteps
    rw [List.length_append, List.length_map, List.length_range]
    by_cases h : 0 < remainder tv w m
    · rw [if_pos (ne_of_gt h), if_pos h]
      simp
    · have h0 : remainder tv w m = 0 := le_antisymm (not_lt.mp h) hrem
      rw [if_neg (by simp [h0]), if_neg h]
      simp
  · intro hpos
    unfold burnSteps
    rw [if_pos (ne_of_gt hpos)]
    exact List.getLastD_concat _ _ _

/-- Witness for C5 at scenario A: the fire call succeeds, produces
9 + 1 elements, and its last element is the fractional step. -/
theorem spec_C5_witness :
    fire tvA shipA.weight_kg shipA.mass = .ok (burnSteps tvA shipA.weight_kg shipA.mass)
    ∧ (burnSteps tvA shipA.weight_kg shipA.mass).length
        = (target_burn tvA shipA.weight_kg shipA.mass).toNat
          + (if 0 < remainder tvA shipA.weight_kg shipA.mass then 1 else 0)
    ∧ (logOf (shipA.accelerate tvA)).length = 10 :=
  ⟨(spec_C5 tvA shipA.weight_kg shipA.mass (by decide) (by decide) (by decide)).1,
   (spec_C5 tvA shipA.weight_kg shipA.mass (by decide) (by decide) (by decide)).2.1,
   (spec_C5 tvA shipA.weight_kg shipA.mass (by decide) (by decide) (by decide)).2.2.2.2.2.1⟩

/-- C6 (amended).  The source defines no `DegenerateThrust` error: a zero
ship mass or a zero computed acceleration makes one of the two bare
divisions raise `ZeroDivisionError`, and a strictly negative acceleration
proceeds without any error — the whole-second loop is empty, and whenever
the (negative) `modf` remainder is nonzero its truthiness yields one
final element and mutates the speed cell by `accel * remainder`. -/
theorem spec_C6 (tv : Velocity) (w m : ℚ) (hs : 0 ≤ tv.speed_kmh) :
    (m = 0 → fire tv w m = .error .zeroDivision)
    ∧ (accel_kmh w m = 0 → fire tv w m = .error .zeroDivision)
    ∧ (m ≠ 0 → accel_kmh w m < 0 →
        fire tv w m = .ok (if remainder tv w m ≠ 0 then
          [⟨fmul (accel_kmh w m) (remainder tv w m),
            fmul FUEL_BURNED_PER_SECOND (remainder tv w m), 0⟩] else [])) := by
  refine ⟨?_, ?_, ?_⟩
  · intro h
    simp [fire, h]
  · intro h
    unfold fire
    by_cases hm : m = 0
    · simp [hm]
    · simp [hm, h]
  · intro hm hacc
    have ht : seconds_total tv w m ≤ 0 := by
      unfold seconds_total fdiv
      exact roundDouble_nonpos _ (div_nonpos_of_nonneg_of_nonpos hs hacc.le)
    have htb : (target_burn tv w m).toNat = 0 := by
      rw [Int.toNat_eq_zero]
      unfold target_burn truncQ
      by_cases h0 : 0 ≤ seconds_total tv w m
      · have : seconds_total tv w m = 0 := le_antisymm ht h0
        simp [this]
      · rw [if_neg h0]
        have : (0 : ℚ) ≤ -seconds_total tv w m := by linarith [not_le.mp h0]
        have := Int.floor_nonneg.mpr this
        omega
    have hfire : fire tv w m = .ok (burnSteps tv w m) := by
      simp [fire, hm, ne_of_lt hacc]
    rw [hfire]
    unfold burnSteps
    rw [htb]
    simp

/-- Counterexample to C6 as stated: with ship weight 6e7 N (exceeding the
5e7 N thrust) and mass 2e6 kg the computed acceleration is negative, yet
the fire call raises nothing: it succeeds, yields exactly one element,
and that element applies a strictly positive increment to the speed
cell. -/
theorem spec_C6_ce :
    accel_kmh 60000000 2000000 ≤ 0
    ∧ fire tvA 60000000 2000000 = .ok stepsNeg
    ∧ stepsNeg.length = 1
    ∧ 0 < (stepsNeg.getD 0 ⟨0, 0, 0⟩).speed_inc := by
  refine ⟨by decide, by decide, by decide, by decide⟩

/-- Witness for C6 (amended): the zero-acceleration branch at ship weight
exactly 5e7 N, and the negative-acceleration branch at 6e7 N. -/
theorem spec_C6_witness :
    fire tvA 50000000 2000000 = .error .zeroDivision
    ∧ fire tvA 60000000 2000000 = .ok
        (if remainder tvA 60000000 2000000 ≠ 0 then
          [⟨fmul (accel_kmh 60000000 2000000) (remainder tvA 60000000 2000000),
            fmul FUEL_BURNED_PER_SECOND (remainder tvA 60000000 2000000), 0⟩] else []) :=
  ⟨(spec_C6 tvA 50000000 2000000 (by decide)).2.1 (by decide),
   (spec_C6 tvA 60000000 2000000 (by decide)).2.2 (by decide) (by decide)⟩

/-- C1.  Starting from an empty deck of nonnegative capacity, any
single-caller sequence of stores of nonnegative-mass objects keeps, at
every externally observable point (after every prefix of the call
sequence), `stored_mass` equal to the sum of the masses of the top-level
stored items and bounded by the capacity; a container's reported mass
(already including its children, which are not stored as separate
top-level items) therefore enters that sum exactly once. -/
theorem spec_C1 (objs : List PyObj) (maxkg : ℚ) (v : Vehicle)
    (hmax : 0 ≤ maxkg) (hm : ∀ o ∈ objs, 0 ≤ o.mass) (k : ℕ) :
    (runStores (emptyDeck maxkg) (objs.take k)).stored_mass
      = ((runStores (emptyDeck maxkg) (objs.take k)).objects.map (fun p => p.2.mass)).sum
    ∧ (runStores (emptyDeck maxkg) (objs.take k)).stored_mass ≤ maxkg
    ∧ (PyObj.vehicle v).mass = v.base_mass + sumChildMass v.objects := by
  have hm' : ∀ o ∈ objs.take k, 0 ≤ o.mass := fun o h => hm o (List.take_subset k objs h)
  have hinv := runStores_inv (objs.take k) (emptyDeck maxkg)
    (by simp [emptyDeck]) (by simpa [emptyDeck, DictDeck.stored_mass] using hmax) hm'
  refine ⟨rfl, ?_, rfl⟩
  have h := hinv.2.2
  rw [hinv.1] at h
  simpa [emptyDeck] using h

/-- Witness for C1: the demonstration sequence (86 kg + 750 kg committed,
1500 kg rejected) on a 1000 kg deck. -/
theorem spec_C1_witness :
    (runStores (emptyDeck 1000) (demoObjs.take 3)).stored_mass
      = ((runStores (emptyDeck 1000) (demoObjs.take 3)).objects.map (fun p => p.2.mass)).sum
    ∧ (runStores (emptyDeck 1000) (demoObjs.take 3)).stored_mass ≤ 1000
    ∧ (PyObj.vehicle rover).mass = rover.base_mass + sumChildMass rover.objects :=
  spec_C1 demoObjs 1000 rover (by decide) (by decide) 3

/-- C4.  The accelerate loop logs exactly the consumed prefix of the burn
sequence, one event per drawn element carrying its `(fuel_burned,
next_burn)` pair; it never stops while the cancellation condition is
false, and whenever it stops before exhausting the sequence the condition
held after the last drawn element.  Concretely, scenario B (fuel 102,
threshold 100) logs exactly one event `{fuel_burned: 2, next_burn: 2}`
and the North speed cell rounds to 55. -/
theorem spec_C4 :
    (∀ (f thr b0 : ℚ) (steps : List BurnStep),
      consumeSteps f thr steps b0 = steps.take (consumeSteps f thr steps b0).length)
    ∧ (∀ (f thr b0 : ℚ) (steps : List BurnStep) (j : ℕ),
        j + 1 < (consumeSteps f thr steps b0).length → ¬ stopAfter f thr b0 steps j)
    ∧ (∀ (f thr b0 : ℚ) (steps : List BurnStep),
        (consumeSteps f thr steps b0).length < steps.length →
        stopAfter f thr b0 steps ((consumeSteps f thr steps b0).length - 1))
    ∧ (∀ (s : DictShip) (tv : Velocity) (steps : List BurnStep),
        fire tv s.weight_kg s.mass = .ok steps →
        logOf (s.accelerate tv) = s.event_log ++
          (consumeSteps s.current_fuel s.low_fuel_threshold steps
            ((s.event_log.map (fun e => e.fuel_burned)).sum)).map
            (fun st => ⟨st.fuel_burned, st.next_burn⟩))
    ∧ logOf (shipB.accelerate tvA) = [⟨2, 2⟩]
    ∧ pyRound (northSpeedOf (shipB.accelerate tvA)) = 55 := by
  refine ⟨fun f thr b0 steps => consumeSteps_take f thr steps b0,
    fun f thr b0 steps j => consumeSteps_no_early_stop f thr steps b0 j,
    fun f thr b0 steps => consumeSteps_stop_last f thr steps b0,
    ?_, by decide, by decide⟩
  intro s tv steps hf
  obtain ⟨s', hs', hlog, -⟩ := accelerate_spec s tv steps hf
  rw [hs']
  simpa [logOf] using hlog

/-- Witness for C4: in scenario B the loop stops before exhausting the
10-element sequence, and the cancellation condition indeed held after the
last (first) drawn element. -/
theorem spec_C4_witness :
    (consumeSteps 102 100 stepsA 0).length < stepsA.length
    ∧ stopAfter 102 100 0 stepsA ((consumeSteps 102 100 stepsA 0).length - 1) :=
  ⟨by decide, spec_C4.2.2.1 102 100 0 stepsA (by decide)⟩

/-- C10.  Whenever the fire call produces a nonempty sequence, the
accelerate loop draws, applies and logs at least the first element — the
low-fuel check runs only after an element has been drawn and logged — so
the call never returns with zero new events, whatever the fuel level. -/
theorem spec_C10 (s : DictShip) (tv : Velocity) (steps : List BurnStep)
    (hf : fire tv s.weight_kg s.mass = .ok steps) (hne : steps ≠ []) :
    ∃ s', s.accelerate tv = .ok s'
      ∧ s'.event_log.length = s.event_log.length
          + (consumeSteps s.current_fuel s.low_fuel_threshold steps
              ((s.event_log.map (fun e => e.fuel_burned)).sum)).length
      ∧ 1 ≤ (consumeSteps s.current_fuel s.low_fuel_threshold steps
              ((s.event_log.map (fun e => e.fuel_burned)).sum)).length
      ∧ s'.event_log.getD s.event_log.length ⟨0, 0⟩
          = ⟨(steps.headD ⟨0, 0, 0⟩).fuel_burned, (steps.headD ⟨0, 0, 0⟩).next_burn⟩
      ∧ s'.speed_kmh tv.direction = List.foldl fadd (s.speed_kmh tv.direction)
          ((consumeSteps s.current_fuel s.low_fuel_threshold steps
            ((s.event_log.map (fun e => e.fuel_burned)).sum)).map (fun st => st.speed_inc)) := by
  obtain ⟨step, rest, rfl⟩ : ∃ a b, steps = a :: b := by
    cases steps with
    | nil => exact absurd rfl hne
    | cons a b => exact ⟨a, b, rfl⟩
  obtain ⟨s', hs', hlog, hspeed⟩ := accelerate_spec s tv (step :: rest) hf
  obtain ⟨t, ht⟩ := consumeSteps_ne_nil s.current_fuel s.low_fuel_threshold
    ((s.event_log.map (fun e => e.fuel_burned)).sum) step rest
  refine ⟨s', hs', ?_, ?_, ?_, hspeed⟩
  · rw [hlog]; simp
  · rw [ht]; simp
  · rw [hlog, ht, List.getD_eq_getElem?_getD,
      List.getElem?_append_right (Nat.le_refl _)]
    simp

/-- Witness for C10: with zero fuel and threshold 100 the first scenario-A
step is still drawn, logged and applied. -/
theorem spec_C10_witness :
    ∃ s', shipNoFuel.accelerate tvA = .ok s'
      ∧ s'.event_log.length = shipNoFuel.event_log.length
          + (consumeSteps shipNoFuel.current_fuel shipNoFuel.low_fuel_threshold stepsA
              ((shipNoFuel.event_log.map (fun e => e.fuel_burned)).sum)).length
      ∧ 1 ≤ (consumeSteps shipNoFuel.current_fuel shipNoFuel.low_fuel_threshold stepsA
              ((shipNoFuel.event_log.map (fun e => e.fuel_burned)).sum)).length
      ∧ s'.event_log.getD shipNoFuel.event_log.length ⟨0, 0⟩
          = ⟨(stepsA.headD ⟨0, 0, 0⟩).fuel_burned, (stepsA.headD ⟨0, 0, 0⟩).next_burn⟩
      ∧ s'.speed_kmh tvA.direction = List.foldl fadd (shipNoFuel.speed_kmh tvA.direction)
          ((consumeSteps shipNoFuel.current_fuel shipNoFuel.low_fuel_threshold stepsA
            ((shipNoFuel.event_log.map (fun e => e.fuel_burned)).sum)).map
            (fun st => st.speed_inc)) :=
  spec_C10 shipNoFuel tvA stepsA (by decide) (by decide)

lemma merge_simple_dump (o : SimpleObj) :
    (simple_dump o).foldl (fun acc p => upsert acc p.1 p.2) [] = simple_dump o := by
  simp [simple_dump, upsert]

lemma merge_vehicle_dump (v : Vehicle) :
    (vehicle_dump_hash v).foldl (fun acc p => upsert acc p.1 p.2) [] = vehicle_dump_hash v := by
  simp [vehicle_dump_hash, upsert]

lemma store_children_strings (cn : String) :
    ∀ (cs : List (String × SimpleObj)) (st : RedisState),
      (store_children cn st cs).strings = st.strings := by
  intro cs
  induction cs with
  | nil => intro st; rfl
  | cons p rest ih =>
    intro st
    obtain ⟨k, c⟩ := p
    rw [store_children, ih]
    rfl

lemma store_children_hashes_other (cn key : String) :
    ∀ (cs : List (String × SimpleObj)) (st : RedisState),
      key ∉ cs.map (fun p => container_item cn p.2.name) →
      lookupA (store_children cn st cs).hashes key = lookupA st.hashes key := by
  intro cs
  induction cs with
  | nil => intro st _; rfl
  | cons p rest ih =>
    intro st h
    obtain ⟨k, c⟩ := p
    simp only [List.map_cons, List.mem_cons] at h
    push_neg at h
    rw [store_children, ih _ h.2]
    show lookupA (upsert (st.zadd (container_items_set cn) c.name c.mass).hashes
      (container_item cn c.name) _) key = _
    rw [lookupA_upsert_ne _ _ _ _ (Ne.symm h.1)]
    rfl

lemma store_children_zset (cn : String) :
    ∀ (cs : List (String × SimpleObj)) (st : RedisState),
      (∀ p ∈ cs, p.2.name ∉
        ((lookupA st.zsets (container_items_set cn)).getD []).map Prod.fst) →
      (cs.map (fun p => p.2.name)).Nodup →
      ((lookupA (store_children cn st cs).zsets (container_items_set cn)).getD [])
        = ((lookupA st.zsets (container_items_set cn)).getD [])
          ++ cs.map (fun p => (p.2.name, p.2.mass)) := by
  intro cs
  induction cs with
  | nil => intro st _ _; simp [store_children]
  | cons p rest ih =>
    intro st hfresh hnd
    obtain ⟨k, c⟩ := p
    simp only [List.map_cons, List.nodup_cons] at hnd
    have hc : c.name ∉ ((lookupA st.zsets (container_items_set cn)).getD []).map Prod.fst :=
      hfresh (k, c) (by simp)
    have hzs : ((lookupA ((st.zadd (container_items_set cn) c.name c.mass).hset
        (container_item cn c.name) (simple_dump c)).zsets (container_items_set cn)).getD [])
        = ((lookupA st.zsets (container_items_set cn)).getD []) ++ [(c.name, c.mass)] := by
      show ((lookupA (upsert st.zsets (container_items_set cn) _) (container_items_set cn)).getD [])
        = _
      rw [lookupA_upsert_self]
      simp [upsert_of_not_mem _ _ _ hc]
    rw [store_children, ih _ ?_ hnd.2, hzs]
    · simp
    · intro q hq
      rw [hzs]
      simp only [List.map_append, List.mem_append]
      push_neg
      refine ⟨hfresh q (List.mem_cons_of_mem _ hq), ?_⟩
      have : q.2.name ≠ c.name := by
        intro he
        exact hnd.1 (by rw [← he]; exact List.mem_map_of_mem (fun p => p.2.name) hq)
      simpa using this

lemma store_children_child_hash (cn : String) :
    ∀ (cs : List (String × SimpleObj)) (st : RedisState),
      (cs.map (fun p => container_item cn p.2.name)).Nodup →
      (∀ p ∈ cs, lookupA st.hashes (container_item cn p.2.name) = none) →
      ∀ p ∈ cs, lookupA (store_children cn st cs).hashes (container_item cn p.2.name)
        = some (simple_dump p.2) := by
  intro cs
  induction cs with
  | nil => intro st _ _ p hp; exact absurd hp (by simp)
  | cons q rest ih =>
    intro st hnd hfresh p hp
    obtain ⟨k, c⟩ := q
    simp only [List.map_cons, List.nodup_cons] at hnd
    have hstep : lookupA ((st.zadd (container_items_set cn) c.name c.mass).hset
        (container_item cn c.name) (simple_dump c)).hashes (container_item cn c.name)
        = some (simple_dump c) := by
      show lookupA (upsert (st.zadd (container_items_set cn) c.name c.mass).hashes
        (container_item cn c.name) _) (container_item cn c.name) = _
      rw [lookupA_upsert_self]
      have : lookupA (st.zadd (container_items_set cn) c.name c.mass).hashes
          (container_item cn c.name) = none := hfresh (k, c) (by simp)
      rw [this]
      simp [merge_simple_dump]
    rcases List.mem_cons.mp hp with he | hrest
    · subst he
      rw [store_children, store_children_hashes_other cn _ rest _ hnd.1, hstep]
    · rw [store_children]
      refine ih _ hnd.2 ?_ p hrest
      intro r hr
      have hne : container_item cn c.name ≠ container_item cn r.2.name := by
        intro he
        exact hnd.1 (by rw [he]; exact List.mem_map_of_mem (fun p => container_item cn p.2.name) hr)
      show lookupA (upsert (st.zadd (container_items_set cn) c.name c.mass).hashes
        (container_item cn c.name) _) (container_item cn r.2.name) = none
      rw [lookupA_upsert_ne _ _ _ _ hne]
      exact hfresh r (List.mem_cons_of_mem _ hr)

lemma load_object_simple_dump (o : SimpleObj)
    (h : o.type = "person" ∨ o.type = "object") :
    load_object (simple_dump o) = .ok (.simple o) := by
  obtain ⟨n, m, t⟩ := o
  rcases h with h | h <;> subst h <;>
    simp [load_object, simple_dump, lookupA, load_simple]

lemma load_object_vehicle_dump (v : Vehicle) :
    load_object (vehicle_dump_hash v) = .ok (.vehicle ⟨v.name, v.base_mass, []⟩) := by
  simp [load_object, vehicle_dump_hash, lookupA, load_vehicle]

lemma load_children_dumped (st : RedisState) (cn : String) :
    ∀ (cs : List (String × SimpleObj)),
      (∀ p ∈ cs, lookupA st.hashes (container_item cn p.2.name) = some (simple_dump p.2)) →
      (∀ p ∈ cs, p.2.type = "person" ∨ p.2.type = "object") →
      load_children st cn (cs.map (fun p => p.2.name))
        = .ok (cs.map (fun p => (p.2.name, p.2))) := by
  intro cs
  induction cs with
  | nil => intro _ _; rfl
  | cons q rest ih =>
    intro hlook hty
    obtain ⟨k, c⟩ := q
    have h1 : st.hgetall (container_item cn c.name) = simple_dump c := by
      unfold RedisState.hgetall
      rw [hlook (k, c) (by simp)]
      rfl
    simp only [List.map_cons, load_children, h1,
      load_object_simple_dump c (hty (k, c) (by simp))]
    rw [ih (fun p hp => hlook p (List.mem_cons_of_mem _ hp))
      (fun p hp => hty p (List.mem_cons_of_mem _ hp))]

lemma foldl_upsert_eq_append :
    ∀ (l acc : List (String × SimpleObj)),
      (∀ p ∈ l, p.1 ∉ acc.map Prod.fst) → (l.map Prod.fst).Nodup →
      l.foldl (fun acc p => upsert acc p.1 p.2) acc = acc ++ l := by
  intro l
  induction l with
  | nil => intro acc _ _; simp
  | cons p rest ih =>
    intro acc hdisj hnd
    simp only [List.map_cons, List.nodup_cons] at hnd
    have hp : p.1 ∉ acc.map Prod.fst := hdisj p (by simp)
    have h1 : upsert acc p.1 p.2 = acc ++ [p] := by
      rw [upsert_of_not_mem _ _ _ hp]
    rw [List.foldl_cons, h1, ih (acc ++ [p]) ?_ hnd.2]
    · simp
    · intro q hq
      simp only [List.map_append, List.mem_append]
      push_neg
      refine ⟨hdisj q (List.mem_cons_of_mem _ hq), ?_⟩
      have : q.1 ≠ p.1 := by
        intro he
        exact hnd.1 (by rw [← he]; exact List.mem_map_of_mem Prod.fst hq)
      simpa using this

lemma map_name_eta :
    ∀ (l : List (String × SimpleObj)), (∀ p ∈ l, p.1 = p.2.name) →
      l.map (fun p => (p.2.name, p.2)) = l := by
  intro l
  induction l with
  | nil => intro _; rfl
  | cons p rest ih =>
    intro h
    obtain ⟨k, c⟩ := p
    have hk : k = c.name := h (k, c) (by simp)
    simp only [List.map_cons, ih (fun q hq => h q (List.mem_cons_of_mem _ hq))]
    rw [← hk]

lemma zadd_hashes (st : RedisState) (k m : String) (s : ℚ) :
    (st.zadd k m s).hashes = st.hashes := rfl

lemma incrby_hashes (st : RedisState) (k : String) (a : ℚ) :
    (st.incrby k a).hashes = st.hashes := rfl

lemma hset_hashes (st : RedisState) (k : String) (fm : FieldMap) :
    (st.hset k fm).hashes
      = upsert st.hashes k
          (fm.foldl (fun acc p => upsert acc p.1 p.2) ((lookupA st.hashes k).getD [])) := rfl

lemma hset_zsets (st : RedisState) (k : String) (fm : FieldMap) :
    (st.hset k fm).zsets = st.zsets := rfl

lemma incrby_zsets (st : RedisState) (k : String) (a : ℚ) :
    (st.incrby k a).zsets = st.zsets := rfl

lemma zadd_zsets (st : RedisState) (k m : String) (s : ℚ) :
    (st.zadd k m s).zsets
      = upsert st.zsets k (upsert ((lookupA st.zsets k).getD []) m s) := rfl

/-- C7.  Round trip on the Redis-backed deck: storing a non-container
object at a fresh item key and then getting it by name returns an equal
object; storing a well-formed container (children keyed by their own
names, with known type tags and no key collisions) at fresh keys and
getting it back returns a container with the same name and base mass and
a child dictionary equal (not partial) to the original. -/
theorem spec_C7 :
    (∀ (d : HashDeck) (st : RedisState) (o : SimpleObj),
      (o.type = "person" ∨ o.type = "object") →
      ¬ ((PyObj.simple o).mass > d.capacity_mass st) →
      lookupA st.hashes (deck_item d.name o.name) = none →
      ∃ st', d.store (.simple o) st = .ok st'
        ∧ d.get o.name st' = .ok (.simple o))
    ∧ (∀ (d : HashDeck) (st : RedisState) (v : Vehicle),
      (∀ p ∈ v.objects, p.1 = p.2.name) →
      (∀ p ∈ v.objects, p.2.type = "person" ∨ p.2.type = "object") →
      (v.objects.map (fun p => p.2.name)).Nodup →
      (v.objects.map (fun p => container_item v.name p.2.name)).Nodup →
      ¬ ((PyObj.vehicle v).mass > d.capacity_mass st) →
      lookupA st.hashes (deck_item d.name v.name) = none →
      lookupA st.zsets (container_items_set v.name) = none →
      (∀ p ∈ v.objects, lookupA st.hashes (container_item v.name p.2.name) = none) →
      deck_item d.name v.name ∉ v.objects.map (fun p => container_item v.name p.2.name) →
      deck_items_set d.name ≠ container_items_set v.name →
      ∃ st', d.store (.vehicle v) st = .ok st'
        ∧ d.get v.name st' = .ok (.vehicle v)) := by
  constructor
  · intro d st o hty hcap hfresh
    refine ⟨((st.zadd (deck_items_set d.name) o.name o.mass).hset
        (deck_item d.name o.name) (simple_dump o)).incrby
        (deck_stored_mass_key d.name) o.mass, ?_, ?_⟩
    · unfold HashDeck.store
      rw [if_neg hcap]
      have hd : dump_for_store (.simple o) = some (simple_dump o) := by
        simp [dump_for_store, hty]
      rw [hd]
      rfl
    · have hh : (((st.zadd (deck_items_set d.name) o.name o.mass).hset
          (deck_item d.name o.name) (simple_dump o)).incrby
          (deck_stored_mass_key d.name) o.mass).hgetall (deck_item d.name o.name)
          = simple_dump o := by
        unfold RedisState.hgetall
        rw [incrby_hashes, hset_hashes, zadd_hashes, hfresh, lookupA_upsert_self]
        simp [merge_simple_dump]
      unfold HashDeck.get
      rw [hh, load_object_simple_dump o hty]
  · intro d st v hkeys htypes hnn hck hcap hif hzf hcf hdk hzs
    refine ⟨(((store_children v.name st v.objects).zadd
        (deck_items_set d.name) v.name (v.base_mass + sumChildMass v.objects)).hset
        (deck_item d.name v.name) (vehicle_dump_hash v)).incrby
        (deck_stored_mass_key d.name) (v.base_mass + sumChildMass v.objects), ?_, ?_⟩
    · unfold HashDeck.store
      rw [if_neg hcap]
      have hall : (v.objects.all
          (fun p => p.2.type = "person" ∨ p.2.type = "object")) = true := by
        rw [List.all_eq_true]
        intro p hp
        exact decide_eq_true (htypes p hp)
      dsimp only [dump_for_store, PyObj.name, PyObj.mass]
      rw [if_pos hall]
    · have hitem : ((((store_children v.name st v.objects).zadd
          (deck_items_set d.name) v.name (v.base_mass + sumChildMass v.objects)).hset
          (deck_item d.name v.name) (vehicle_dump_hash v)).incrby
          (deck_stored_mass_key d.name) (v.base_mass + sumChildMass v.objects)).hgetall
          (deck_item d.name v.name) = vehicle_dump_hash v := by
        unfold RedisState.hgetall
        rw [incrby_hashes, hset_hashes, zadd_hashes,
          store_children_hashes_other _ _ v.objects st hdk, hif, lookupA_upsert_self]
        simp [merge_vehicle_dump]
      have hzr : ((((store_children v.name st v.objects).zadd
          (deck_items_set d.name) v.name (v.base_mass + sumChildMass v.objects)).hset
          (deck_item d.name v.name) (vehicle_dump_hash v)).incrby
          (deck_stored_mass_key d.name) (v.base_mass + sumChildMass v.objects)).zrangeAll
          (container_items_set v.name) = v.objects.map (fun p => p.2.name) := by
        unfold RedisState.zrangeAll
        rw [incrby_zsets, hset_zsets, zadd_zsets, lookupA_upsert_ne _ _ _ _ hzs,
          store_children_zset _ v.objects st ?_ hnn]
        · rw [hzf]
          simp [List.map_map]
        · intro p hp
          rw [hzf]
          simp
      have hchild : ∀ p ∈ v.objects,
          lookupA ((((store_children v.name st v.objects).zadd
            (deck_items_set d.name) v.name (v.base_mass + sumChildMass v.objects)).hset
            (deck_item d.name v.name) (vehicle_dump_hash v)).incrby
            (deck_stored_mass_key d.name) (v.base_mass + sumChildMass v.objects)).hashes
            (container_item v.name p.2.name) = some (simple_dump p.2) := by
        intro p hp
        have hne : deck_item d.name v.name ≠ container_item v.name p.2.name := by
          intro he
          exact hdk (he ▸ List.mem_map_of_mem (fun p => container_item v.name p.2.name) hp)
        rw [incrby_hashes, hset_hashes, lookupA_upsert_ne _ _ _ _ hne, zadd_hashes]
        exact store_children_child_hash _ v.objects st hck hcf p hp
      unfold HashDeck.get
      rw [hitem, load_object_vehicle_dump]
      dsimp only
      rw [hzr, load_children_dumped _ v.name v.objects hchild htypes]
      dsimp only
      rw [foldl_upsert_eq_append _ [] (by simp) ?_]
      · rw [map_name_eta v.objects hkeys]
        cases v
        rfl
      · rw [show (v.objects.map (fun p => (p.2.name, p.2))).map Prod.fst
            = v.objects.map (fun p => p.2.name) from by simp [List.map_map]]
        exact hnn

/-- Witness for C7: Bob (86 kg person) and the rover containing Bob, each
stored into a flushed keyspace and read back. -/
theorem spec_C7_witness :
    (∃ st', hdeckMain.store (.simple bob) st0 = .ok st'
      ∧ hdeckMain.get bob.name st' = .ok (.simple bob))
    ∧ (∃ st', hdeckMain.store (.vehicle rover) st0 = .ok st'
      ∧ hdeckMain.get rover.name st' = .ok (.vehicle rover)) :=
  ⟨spec_C7.1 hdeckMain st0 bob (by decide) (by decide) (by decide),
   spec_C7.2 hdeckMain st0 rover (by decide) (by decide) (by decide) (by decide)
     (by decide) (by decide) (by decide) (by decide) (by decide) (by decide)⟩

/-- C8.  `Ship.mass` is `base_mass` plus the decks' stored masses,
`Ship.weight_kg` is that mass times the current gravity (in double
arithmetic), and `accelerate` consumes exactly the sequence fired at
those two values; so cargo changes the burn physics: with the 750 kg
loader stored first, scenario A's final fractional step burns
0.28612802400872894 fuel units instead of 0.27485380116959135, and the
North speed still rounds to 500. -/
theorem spec_C8 :
    (∀ s : DictShip, s.mass = s.base_mass + (s.decks.map DictDeck.stored_mass).sum)
    ∧ (∀ s : DictShip, s.weight_kg = fmul s.mass s.current_gravity)
    ∧ (∀ (s : DictShip) (tv : Velocity) (steps : List BurnStep),
        fire tv (fmul (s.base_mass + (s.decks.map DictDeck.stored_mass).sum) s.current_gravity)
            (s.base_mass + (s.decks.map DictDeck.stored_mass).sum) = .ok steps →
        logOf (s.accelerate tv) = s.event_log ++
          (consumeSteps s.current_fuel s.low_fuel_threshold steps
            ((s.event_log.map (fun e => e.fuel_burned)).sum)).map
            (fun st => ⟨st.fuel_burned, st.next_burn⟩))
    ∧ runStores (emptyDeck 1000) [loader] = loadedDeck
    ∧ loadedDeck.stored_mass = 750
    ∧ shipLoaded.mass = 2000750
    ∧ (logOf (shipLoaded.accelerate tvA)).getLastD ⟨1, 1⟩
        = ⟨roundDouble (0.28612802400872894 : ℚ), 0⟩
    ∧ (logOf (shipA.accelerate tvA)).getLastD ⟨1, 1⟩
        = ⟨roundDouble (0.27485380116959135 : ℚ), 0⟩
    ∧ (logOf (shipLoaded.accelerate tvA)).getLastD ⟨1, 1⟩
        ≠ (logOf (shipA.accelerate tvA)).getLastD ⟨1, 1⟩
    ∧ pyRound (northSpeedOf (shipLoaded.accelerate tvA)) = 500
    ∧ (logOf (shipLoaded.accelerate tvA)).length = 10 := by
  refine ⟨fun s => rfl, fun s => rfl, ?_, by decide, by decide, by decide, by decide,
    by decide, by decide, by decide, by decide⟩
  intro s tv steps hf
  have hf' : fire tv s.weight_kg s.mass = .ok steps := hf
  obtain ⟨s', hs', hlog, -⟩ := accelerate_spec s tv steps hf'
  rw [hs']
  simpa [logOf] using hlog

/-- Witness for C8: the consumption equation instantiated at scenario A's
ship and steps. -/
theorem spec_C8_witness :
    logOf (shipA.accelerate tvA) = shipA.event_log ++
      (consumeSteps shipA.current_fuel shipA.low_fuel_threshold stepsA
        ((shipA.event_log.map (fun e => e.fuel_burned)).sum)).map
        (fun st => ⟨st.fuel_burned, st.next_burn⟩) :=
  spec_C8.2.2.1 shipA tvA stepsA (by decide)

end Spaceship
